import Mathlib

/-! Shallow embedding of the soundclash preprocessing core
(`src/soundclash/preprocessing/base.py`).

Time values (silence boundaries, durations, positions) are modelled as
rationals `ℚ`: the Python code performs only ordered-field operations
(comparison, addition, subtraction, `min`) on its floats.

Embedded functions:
  * `get_file_duration`   — the ffprobe wrapper, abstracted over the probed
    value: it returns the probed duration multiplied by 1000 (milliseconds).
  * `generate_split_commands` — the single-stream segmenter, abstracted over
    the file duration; `generate_split_commands_probed` composes it with the
    duration probe exactly as the Python function does.
  * `generate_split_commands_multi_file` — the multi-stream segmenter.  Its
    Python `while` loop has no termination measure, so it is embedded with an
    explicit fuel parameter; `none` means the fuel ran out, `some cmds` means
    the Python loop terminates with output `cmds`.
  * `detect_silences` — the ffmpeg silencedetect output parser, abstracted
    over an already-tokenised line list (string matching and float parsing of
    a line are collapsed into the `FfmpegLine` constructors).

A directive records the data of one emitted ffmpeg command: the `-ss` value
(start), the `-to` value (end) and the chunk counter baked into the output
file name (and, for the multi-file variant, the index of the input file).
-/

/-- A single-stream cut directive `(start, end, chunk_counter)`:
the `-ss` time, the `-to` time and the `chunk_counter` of the emitted
ffmpeg command. -/
abbrev SingleDirective := ℚ × ℚ × Nat

/-- The ffprobe duration helper: the Python function probes a duration (in
seconds) and returns it multiplied by 1000, i.e. in milliseconds. -/
def get_file_duration (probedSeconds : ℚ) : ℚ :=
  probedSeconds * 1000

/-- The loop of `generate_split_commands`: walk the silence list keeping the
cursor `chunk_start` and the counter `chunk_counter`; emit `(chunk_start,
silence_start, chunk_counter)` whenever the gap reaches `min_duration`,
always move the cursor to `silence_end`; after the loop emit the trailing
directive if the remaining tail reaches `min_duration`. -/
def splitCommandsGo (file_duration min_duration : ℚ) :
    List (ℚ × ℚ) → ℚ → Nat → List SingleDirective
  | [], chunk_start, chunk_counter =>
      if min_duration ≤ file_duration - chunk_start then
        [(chunk_start, file_duration, chunk_counter)]
      else []
  | (silence_start, silence_end) :: rest, chunk_start, chunk_counter =>
      if min_duration ≤ silence_start - chunk_start then
        (chunk_start, silence_start, chunk_counter) ::
          splitCommandsGo file_duration min_duration rest silence_end (chunk_counter + 1)
      else
        splitCommandsGo file_duration min_duration rest silence_end chunk_counter

/-- The single-stream segmenter `generate_split_commands`, abstracted over
the file duration (the Python function obtains it from `get_file_duration`;
see `generate_split_commands_probed` for the composition). -/
def generate_split_commands (file_duration : ℚ) (silences : List (ℚ × ℚ))
    (min_duration : ℚ) : List SingleDirective :=
  splitCommandsGo file_duration min_duration silences 0 0

/-- `generate_split_commands` exactly as the Python function computes it:
the file duration is the probed duration in seconds passed through
`get_file_duration`, hence in milliseconds. -/
def generate_split_commands_probed (probedSeconds : ℚ) (silences : List (ℚ × ℚ))
    (min_duration : ℚ) : List SingleDirective :=
  generate_split_commands (get_file_duration probedSeconds) silences min_duration

/-- The value of the cursor `chunk_start` after the silence loop of
`generate_split_commands`: the end of the last silence, or `0` if there is
none. -/
def finalCursor (silences : List (ℚ × ℚ)) : ℚ :=
  silences.foldl (fun _ p => p.2) 0

/-- Modelled from the spec (§4.1 wording of the cursor algorithm, used as the
comparison point of the refinement claim): one loop step, threading the state
`(emitted, cursor, counter)` through a fold. -/
def specCursorStep (min_duration : ℚ) (acc : List SingleDirective × ℚ × Nat)
    (sil : ℚ × ℚ) : List SingleDirective × ℚ × Nat :=
  if min_duration ≤ sil.1 - acc.2.1 then
    (acc.1 ++ [(acc.2.1, sil.1, acc.2.2)], sil.2, acc.2.2 + 1)
  else
    (acc.1, sil.2, acc.2.2)

/-- Modelled from the spec (§4.1): after the loop, emit one final trailing
directive `(cursor, duration, counter)` when `duration - cursor` reaches
`min_duration`. -/
def specFinalize (duration min_duration : ℚ)
    (acc : List SingleDirective × ℚ × Nat) : List SingleDirective :=
  if min_duration ≤ duration - acc.2.1 then acc.1 ++ [(acc.2.1, duration, acc.2.2)]
  else acc.1

/-- Modelled from the spec (§4.1): the full cursor algorithm, starting from
cursor `0` and counter `0`. -/
def singleStreamSegmentSpec (duration : ℚ) (silences : List (ℚ × ℚ))
    (min_duration : ℚ) : List SingleDirective :=
  specFinalize duration min_duration
    (silences.foldl (specCursorStep min_duration) ([], 0, 0))

/-- One input stream of the multi-file segmenter: its probed duration and its
detected silence list (both as handed to the walking loop). -/
structure AudioStream where
  duration : ℚ
  silences : List (ℚ × ℚ)
deriving DecidableEq

/-- A multi-file cut directive: input-file index, `-ss` time, `-to` time and
the chunk counter of the emitted ffmpeg command. -/
structure MultiDirective where
  fileIdx : Nat
  start : ℚ
  stop : ℚ
  outIdx : Nat
deriving DecidableEq

/-- The state of the multi-file walk: `current_file_index` and
`current_file_position`. -/
structure WalkState where
  fileIndex : Nat
  filePos : ℚ
deriving DecidableEq

/-- The silence-adjustment loop of `generate_split_commands_multi_file`: the
first silence `(ss, se)` in list order with `ss ≤ chunk_end < se` clamps
`chunk_end` to `ss`; otherwise `chunk_end` is unchanged. -/
def adjustChunkEnd : List (ℚ × ℚ) → ℚ → ℚ
  | [], chunk_end => chunk_end
  | (silence_start, silence_end) :: rest, chunk_end =>
      if silence_start ≤ chunk_end ∧ chunk_end < silence_end then silence_start
      else adjustChunkEnd rest chunk_end

/-- The inner `while remaining_duration > 0 and current_file_index <
len(input_files)` loop of `generate_split_commands_multi_file`, with an
explicit fuel bound: `none` means the fuel was exhausted while the Python
loop guard still held (the Python loop would keep running). -/
def multiInnerLoop (streams : List AudioStream) (chunk_counter : Nat) :
    Nat → ℚ → WalkState → Option (List MultiDirective × WalkState)
  | 0, remaining, st =>
      if 0 < remaining ∧ st.fileIndex < streams.length then none else some ([], st)
  | fuel + 1, remaining, st =>
      if 0 < remaining ∧ st.fileIndex < streams.length then
        let stream := streams.getD st.fileIndex ⟨0, []⟩
        let chunk_start := st.filePos
        let chunk_end := adjustChunkEnd stream.silences
          (min stream.duration (chunk_start + remaining))
        let chunk_duration := chunk_end - chunk_start
        let newPos := st.filePos + chunk_duration
        let st' : WalkState :=
          if stream.duration ≤ newPos then ⟨st.fileIndex + 1, 0⟩
          else ⟨st.fileIndex, newPos⟩
        Option.map
          (fun r => (⟨st.fileIndex, chunk_start, chunk_end, chunk_counter⟩ :: r.1, r.2))
          (multiInnerLoop streams chunk_counter fuel (remaining - chunk_duration) st')
      else some ([], st)

/-- The outer `for i, duration in enumerate(known_durations)` loop of
`generate_split_commands_multi_file`: run the inner walk for each target
duration, incrementing `chunk_counter` once per target. -/
def multiOuterLoop (streams : List AudioStream) (fuel : Nat) :
    List ℚ → Nat → WalkState → Option (List MultiDirective)
  | [], _, _ => some []
  | duration :: rest, chunk_counter, st =>
      match multiInnerLoop streams chunk_counter fuel duration st with
      | none => none
      | some (cmds, st') =>
          Option.map (fun tail => cmds ++ tail)
            (multiOuterLoop streams fuel rest (chunk_counter + 1) st')

/-- The multi-stream segmenter `generate_split_commands_multi_file`, with an
explicit fuel bound on each inner walk. -/
def generate_split_commands_multi_file (streams : List AudioStream)
    (known_durations : List ℚ) (fuel : Nat) : Option (List MultiDirective) :=
  multiOuterLoop streams fuel known_durations 0 ⟨0, 0⟩

/-- Total extracted length of a directive list: the sum of `end - start`. -/
def sumDur (cmds : List MultiDirective) : ℚ :=
  (cmds.map (fun d => d.stop - d.start)).sum

/-- Well-formedness of a stream as the spec data model states it: nonnegative
duration, silences inside `[0, duration]`, time-ordered and disjoint. -/
def WellFormedStream (s : AudioStream) : Prop :=
  0 ≤ s.duration ∧ (∀ p ∈ s.silences, 0 ≤ p.1 ∧ p.2 ≤ s.duration) ∧
    List.Pairwise (fun p q : ℚ × ℚ => p.2 ≤ q.1) s.silences

/-- One line of ffmpeg silencedetect stderr output, abstracted: a
`silence_start` line carrying a parsed time, a `silence_end` line carrying a
parsed time, or any other line. -/
inductive FfmpegLine where
  | silenceStart (t : ℚ)
  | silenceEnd (t : ℚ)
  | other
deriving DecidableEq

/-- One line-processing step of `detect_silences`: a `silence_start` line
appends `(t, None)`; a `silence_end` line fills in the end of the last
interval when that interval is still open; other lines are ignored. -/
def detectSilencesStep (silences : List (ℚ × Option ℚ)) :
    FfmpegLine → List (ℚ × Option ℚ)
  | .silenceStart t => silences ++ [(t, none)]
  | .silenceEnd t =>
      match silences.getLast? with
      | some (s, none) => silences.dropLast ++ [(s, some t)]
      | _ => silences
  | .other => silences

/-- The silencedetect output parser `detect_silences` over a tokenised line
list.  The second component of each returned pair is `none` exactly where the
Python function leaves the sentinel `None`. -/
def detect_silences (lines : List FfmpegLine) : List (ℚ × Option ℚ) :=
  lines.foldl detectSilencesStep []

theorem specCursorStep_foldl (d m : ℚ) :
    ∀ (s : List (ℚ × ℚ)) (acc : List SingleDirective) (cursor : ℚ) (k : Nat),
      specFinalize d m (s.foldl (specCursorStep m) (acc, cursor, k)) =
        acc ++ splitCommandsGo d m s cursor k := by
  intro s
  induction s with
  | nil =>
      intro acc cursor k
      simp only [List.foldl_nil, specFinalize, splitCommandsGo]
      split <;> simp
  | cons hd tl ih =>
      intro acc cursor k
      obtain ⟨ss, se⟩ := hd
      simp only [List.foldl_cons, specCursorStep, splitCommandsGo]
      by_cases hc : m ≤ ss - cursor
      · rw [if_pos hc, if_pos hc, ih]
        simp
      · rw [if_neg hc, if_neg hc, ih]

/-- C1: the single-stream segmenter computes its output by the exact cursor
algorithm of the spec — starting from cursor 0 and counter 0, each silence
`(ss, se)` emits `(cursor, ss, counter)` and bumps the counter iff
`ss - cursor ≥ min_duration` and then moves the cursor to `se`, and a final
trailing directive `(cursor, d, counter)` is emitted iff
`d - cursor ≥ min_duration`. -/
theorem C1_single_cursor_algorithm (d : ℚ) (silences : List (ℚ × ℚ)) (m : ℚ) :
    generate_split_commands d silences m = singleStreamSegmentSpec d silences m := by
  rw [generate_split_commands, singleStreamSegmentSpec, specCursorStep_foldl,
    List.nil_append]

/-- C6 (counterexample): on duration 180, silences `[(30,35),(90,95)]`,
`min_duration` 60, the single-stream segmenter does not return
`[(0,30,0),(95,180,1)]`. -/
theorem C6_concrete_single_scenario_counterexample :
    generate_split_commands 180 [(30, 35), (90, 95)] 60 ≠
      [(0, 30, 0), (95, 180, 1)] := by
  norm_num [generate_split_commands, splitCommandsGo]

/-- C6 (amended): on duration 180, silences `[(30,35),(90,95)]`,
`min_duration` 60, the single-stream segmenter returns exactly
`[(95, 180, 0)]`: the gaps 0→30 (30s) and 35→90 (55s) are below the minimum
duration, only the trailing gap 95→180 (85s) is emitted, with counter 0. -/
theorem C6_concrete_single_scenario_amended :
    generate_split_commands 180 [(30, 35), (90, 95)] 60 = [(95, 180, 0)] := by
  norm_num [generate_split_commands, splitCommandsGo]

/-- C10: the silence parser does not guarantee well-formed intervals — on
input containing a `silence_start` line with no subsequent `silence_end`
line, the last element of the returned list carries the missing-value
sentinel (`none`) in its end component. -/
theorem C10_unterminated_silence_sentinel :
    (detect_silences [.silenceStart 7]).getLast? = some (7, none) := by
  rfl

theorem adjustChunkEnd_le (sils : List (ℚ × ℚ)) (ce : ℚ) :
    adjustChunkEnd sils ce ≤ ce := by
  induction sils with
  | nil => exact le_refl ce
  | cons hd tl ih =>
      obtain ⟨ss, se⟩ := hd
      simp only [adjustChunkEnd]
      split
      · next h => exact h.1
      · exact ih

theorem adjustChunkEnd_cases (sils : List (ℚ × ℚ)) (ce : ℚ) :
    adjustChunkEnd sils ce = ce ∨
      ∃ p ∈ sils, p.1 ≤ ce ∧ ce < p.2 ∧ adjustChunkEnd sils ce = p.1 := by
  induction sils with
  | nil => exact Or.inl rfl
  | cons hd tl ih =>
      obtain ⟨ss, se⟩ := hd
      simp only [adjustChunkEnd]
      split
      · next h => exact Or.inr ⟨(ss, se), List.mem_cons_self _ _, h.1, h.2, rfl⟩
      · rcases ih with h | ⟨p, hp, h1, h2, h3⟩
        · exact Or.inl h
        · exact Or.inr ⟨p, List.mem_cons_of_mem _ hp, h1, h2, h3⟩

theorem adjustChunkEnd_of_no_match (sils : List (ℚ × ℚ)) (ce : ℚ)
    (h : ∀ p ∈ sils, ¬(p.1 ≤ ce ∧ ce < p.2)) :
    adjustChunkEnd sils ce = ce := by
  induction sils with
  | nil => rfl
  | cons hd tl ih =>
      obtain ⟨ss, se⟩ := hd
      simp only [adjustChunkEnd]
      rw [if_neg (h (ss, se) (List.mem_cons_self _ _))]
      exact ih fun p hp => h p (List.mem_cons_of_mem _ hp)

theorem adjustChunkEnd_eq_of_mem (sils : List (ℚ × ℚ))
    (hord : List.Pairwise (fun p q : ℚ × ℚ => p.2 ≤ q.1) sils)
    (ss se ce : ℚ) (hmem : (ss, se) ∈ sils) (h1 : ss < ce) (h2 : ce < se) :
    adjustChunkEnd sils ce = ss := by
  induction sils with
  | nil => exact absurd hmem (List.not_mem_nil _)
  | cons hd tl ih =>
      obtain ⟨hs, he⟩ := hd
      obtain ⟨hhead, htail⟩ := List.pairwise_cons.1 hord
      simp only [adjustChunkEnd]
      split
      · next hmatch =>
          rcases List.mem_cons.1 hmem with heq | htl
          · exact (congrArg Prod.fst heq).symm
          · have hdis : he ≤ ss := hhead (ss, se) htl
            exact absurd (lt_trans (lt_of_lt_of_le hmatch.2 hdis) h1)
              (lt_irrefl ce)
      · next hmatch =>
          rcases List.mem_cons.1 hmem with heq | htl
          · exfalso
            apply hmatch
            have h5 : hs = ss := congrArg Prod.fst heq |>.symm
            have h6 : he = se := congrArg Prod.snd heq |>.symm
            rw [h5, h6]
            exact ⟨le_of_lt h1, h2⟩
          · exact ih htail htl

theorem adjustChunkEnd_not_inside (sils : List (ℚ × ℚ))
    (hord : List.Pairwise (fun p q : ℚ × ℚ => p.2 ≤ q.1) sils) (ce : ℚ) :
    ∀ p ∈ sils, ¬(p.1 < adjustChunkEnd sils ce ∧ adjustChunkEnd sils ce < p.2) := by
  induction sils with
  | nil => intro p hp; exact absurd hp (List.not_mem_nil _)
  | cons hd tl ih =>
      obtain ⟨hs, he⟩ := hd
      obtain ⟨hhead, htail⟩ := List.pairwise_cons.1 hord
      intro p hp
      simp only [adjustChunkEnd]
      split
      · next hmatch =>
          rcases List.mem_cons.1 hp with heq | htl
          · subst heq
            rintro ⟨ha, _⟩
            exact absurd ha (lt_irrefl _)
          · rintro ⟨ha, _⟩
            have : he ≤ p.1 := hhead p htl
            exact absurd (lt_of_le_of_lt this ha)
              (not_lt.2 (le_trans hmatch.1 (le_of_lt hmatch.2)))
      · next hmatch =>
          rcases List.mem_cons.1 hp with heq | htl
          · subst heq
            push_neg at hmatch
            rcases lt_or_le ce hs with hlt | hge
            · rintro ⟨ha, _⟩
              exact absurd (lt_of_le_of_lt (adjustChunkEnd_le tl ce) hlt)
                (not_lt.2 (le_of_lt ha))
            · have hece : he ≤ ce := hmatch hge
              rcases adjustChunkEnd_cases tl ce with hid | ⟨q, hq, hq1, hq2, hq3⟩
              · rw [hid]
                rintro ⟨_, hb⟩
                exact absurd hece (not_le.2 hb)
              · rw [hq3]
                rintro ⟨_, hb⟩
                exact absurd (hhead q hq) (not_le.2 hb)
          · exact ih htail p htl

theorem multiInnerLoop_zero (streams : List AudioStream) (ctr : Nat) (rem : ℚ)
    (st : WalkState) :
    multiInnerLoop streams ctr 0 rem st =
      if 0 < rem ∧ st.fileIndex < streams.length then none else some ([], st) := by
  rfl

theorem multiInnerLoop_succ_of_guard (streams : List AudioStream) (ctr fuel : Nat)
    (rem : ℚ) (st : WalkState) (h1 : 0 < rem) (h2 : st.fileIndex < streams.length) :
    multiInnerLoop streams ctr (fuel + 1) rem st =
      (let stream := streams.getD st.fileIndex ⟨0, []⟩
       let chunk_end := adjustChunkEnd stream.silences
         (min stream.duration (st.filePos + rem))
       let st' : WalkState :=
         if stream.duration ≤ st.filePos + (chunk_end - st.filePos) then
           ⟨st.fileIndex + 1, 0⟩
         else ⟨st.fileIndex, st.filePos + (chunk_end - st.filePos)⟩
       Option.map
         (fun r => (⟨st.fileIndex, st.filePos, chunk_end, ctr⟩ :: r.1, r.2))
         (multiInnerLoop streams ctr fuel (rem - (chunk_end - st.filePos)) st')) := by
  simp only [multiInnerLoop, if_pos (And.intro h1 h2)]

theorem multiInnerLoop_succ_no_guard (streams : List AudioStream) (ctr fuel : Nat)
    (rem : ℚ) (st : WalkState)
    (h : ¬(0 < rem ∧ st.fileIndex < streams.length)) :
    multiInnerLoop streams ctr (fuel + 1) rem st = some ([], st) := by
  simp only [multiInnerLoop, if_neg h]

/-- C3 (refuting theorem): the claim that the multi-stream walk always
terminates is false — on the single stream of duration 20 with the silence
interval `(0, 10)` and the single target 5, the silence clamp produces a
zero-length chunk every iteration, the inner loop makes no progress, and no
amount of fuel completes the run (the Python `while` loop runs forever). -/
theorem C3_multi_walk_nontermination :
    ∀ fuel, generate_split_commands_multi_file [⟨20, [(0, 10)]⟩] [5] fuel = none := by
  have key : ∀ fuel,
      multiInnerLoop [⟨20, [(0, 10)]⟩] 0 fuel 5 ⟨0, 0⟩ = none := by
    intro fuel
    induction fuel with
    | zero =>
        rw [multiInnerLoop_zero, if_pos]
        constructor
        · norm_num
        · norm_num
    | succ n ih =>
        rw [multiInnerLoop_succ_of_guard _ _ _ _ _ (by norm_num) (by norm_num)]
        have hmin : min (20 : ℚ) ((0 : ℚ) + 5) = 5 := by norm_num
        have hadj : adjustChunkEnd [((0 : ℚ), (10 : ℚ))] 5 = 0 := by
          simp only [adjustChunkEnd]
          rw [if_pos (by norm_num)]
        simp only [List.getD, List.get?, Option.getD, hmin, hadj]
        norm_num [ih]
  intro fuel
  rw [generate_split_commands_multi_file, multiOuterLoop, key fuel]

/-- C8 (counterexample): on the single zero-duration stream and target 5, the
multi-stream segmenter terminates but emits a directive referencing the
zero-duration stream (file index 0, a degenerate `(0, 0)` cut), contradicting
the claim that the walk advances without emitting for such a stream. -/
theorem C8_zero_duration_stream_counterexample :
    generate_split_commands_multi_file [⟨0, []⟩] [5] 2 = some [⟨0, 0, 0, 0⟩] := by
  have ha : multiInnerLoop [(⟨0, []⟩ : AudioStream)] 0 1 5 ⟨1, 0⟩ = some ([], ⟨1, 0⟩) := by
    rw [show (1 : Nat) = 0 + 1 from rfl, multiInnerLoop_succ_no_guard]
    norm_num
  have hb : multiInnerLoop [(⟨0, []⟩ : AudioStream)] 0 2 5 ⟨0, 0⟩ =
      some ([⟨0, 0, 0, 0⟩], ⟨1, 0⟩) := by
    rw [show (2 : Nat) = 1 + 1 from rfl,
      multiInnerLoop_succ_of_guard _ _ _ _ _ (by norm_num) (by norm_num)]
    norm_num [List.getD, adjustChunkEnd, min_def, ha]
  rw [generate_split_commands_multi_file, multiOuterLoop, hb]
  simp [multiOuterLoop]

/-- C8 (amended): when the current stream has duration 0 (its silences lying
within `[0, 0]`) and the walk is at position 0 with remaining target time
left, the step first emits one degenerate directive `(0, 0)` referencing that
stream, and only then advances `stream_index`, resetting the position to 0. -/
theorem C8_zero_duration_stream_amended (streams : List AudioStream)
    (ctr fuel : Nat) (rem : ℚ) (st : WalkState)
    (h1 : 0 < rem) (h2 : st.fileIndex < streams.length)
    (hdur : (streams.getD st.fileIndex ⟨0, []⟩).duration = 0)
    (hsil : ∀ p ∈ (streams.getD st.fileIndex ⟨0, []⟩).silences, p.2 ≤ 0)
    (hpos : st.filePos = 0) :
    multiInnerLoop streams ctr (fuel + 1) rem st =
      Option.map (fun r => (⟨st.fileIndex, 0, 0, ctr⟩ :: r.1, r.2))
        (multiInnerLoop streams ctr fuel rem ⟨st.fileIndex + 1, 0⟩) := by
  have hmin : min (0 : ℚ) (0 + rem) = 0 := by
    rw [zero_add]
    exact min_eq_left h1.le
  have hadj : adjustChunkEnd (streams.getD st.fileIndex ⟨0, []⟩).silences 0 = 0 := by
    apply adjustChunkEnd_of_no_match
    rintro p hp ⟨-, hlt⟩
    exact absurd (hsil p hp) (not_le.2 hlt)
  rw [multiInnerLoop_succ_of_guard _ _ _ _ _ h1 h2]
  simp only [hdur, hpos, hmin, hadj]
  norm_num

/-- C5: in the multi-stream segmenter, whenever the tentative
`chunk_end = min(file_duration, chunk_start + remaining)` falls strictly
inside a silence interval `(ss, se)` of the current stream (silences
time-ordered and disjoint), the emitted directive's end equals `ss`; and the
silence correction only ever shortens a chunk, never lengthens it. -/
theorem C5_silence_boundary_snap (streams : List AudioStream) (ctr fuel : Nat)
    (rem : ℚ) (st : WalkState) (ss se : ℚ)
    (h1 : 0 < rem) (h2 : st.fileIndex < streams.length)
    (hord : List.Pairwise (fun p q : ℚ × ℚ => p.2 ≤ q.1)
      (streams.getD st.fileIndex ⟨0, []⟩).silences)
    (hmem : (ss, se) ∈ (streams.getD st.fileIndex ⟨0, []⟩).silences)
    (hlo : ss < min (streams.getD st.fileIndex ⟨0, []⟩).duration (st.filePos + rem))
    (hhi : min (streams.getD st.fileIndex ⟨0, []⟩).duration (st.filePos + rem) < se) :
    (multiInnerLoop streams ctr (fuel + 1) rem st =
      Option.map (fun r => (⟨st.fileIndex, st.filePos, ss, ctr⟩ :: r.1, r.2))
        (multiInnerLoop streams ctr fuel (rem - (ss - st.filePos))
          ⟨st.fileIndex, ss⟩)) ∧
      ∀ (sils : List (ℚ × ℚ)) (ce : ℚ), adjustChunkEnd sils ce ≤ ce := by
  refine ⟨?_, fun sils ce => adjustChunkEnd_le sils ce⟩
  have hadj : adjustChunkEnd (streams.getD st.fileIndex ⟨0, []⟩).silences
      (min (streams.getD st.fileIndex ⟨0, []⟩).duration (st.filePos + rem)) = ss :=
    adjustChunkEnd_eq_of_mem _ hord ss se _ hmem hlo hhi
  have hp : st.filePos + (ss - st.filePos) = ss := by ring
  rw [multiInnerLoop_succ_of_guard _ _ _ _ _ h1 h2]
  simp only [hadj, hp]
  rw [if_neg (not_le.2 (lt_of_lt_of_le hlo (min_le_left _ _)))]

/-- C5 (witness): the snap theorem applied to the concrete stream of duration
20 with silence `(5, 15)`, remaining 8 from position 0: the tentative end 8
lies strictly inside the silence, and the emitted end is 5. -/
theorem C5_silence_boundary_snap_witness :
    multiInnerLoop [⟨20, [(5, 15)]⟩] 0 (0 + 1) 8 ⟨0, 0⟩ =
      Option.map
        (fun r => (⟨0, (⟨0, 0⟩ : WalkState).filePos, 5, 0⟩ :: r.1, r.2))
        (multiInnerLoop [⟨20, [(5, 15)]⟩] 0 0 (8 - (5 - (⟨0, 0⟩ : WalkState).filePos))
          ⟨0, 5⟩) :=
  (C5_silence_boundary_snap [⟨20, [(5, 15)]⟩] 0 0 8 ⟨0, 0⟩ 5 15 (by norm_num)
    (by norm_num) (by simp [List.getD]) (by simp [List.getD])
    (by norm_num [List.getD, min_def]) (by norm_num [List.getD, min_def])).1

theorem sumDur_cons (d : MultiDirective) (l : List MultiDirective) :
    sumDur (d :: l) = (d.stop - d.start) + sumDur l := by
  simp [sumDur]

theorem sumDur_append (a b : List MultiDirective) :
    sumDur (a ++ b) = sumDur a + sumDur b := by
  simp [sumDur]

theorem multiInnerLoop_of_nonpos (streams : List AudioStream) (ctr fuel : Nat)
    (rem : ℚ) (st : WalkState) (h : rem ≤ 0) :
    multiInnerLoop streams ctr fuel rem st = some ([], st) := by
  have hg : ¬(0 < rem ∧ st.fileIndex < streams.length) := by
    rintro ⟨h1, -⟩
    exact absurd h (not_le.2 h1)
  cases fuel with
  | zero => rw [multiInnerLoop_zero, if_neg hg]
  | succ n => exact multiInnerLoop_succ_no_guard _ _ _ _ _ hg

theorem multiInnerLoop_outIdx (streams : List AudioStream) (ctr : Nat) :
    ∀ (fuel : Nat) (rem : ℚ) (st : WalkState) (cmds : List MultiDirective)
      (st' : WalkState),
      multiInnerLoop streams ctr fuel rem st = some (cmds, st') →
      ∀ d ∈ cmds, d.outIdx = ctr := by
  intro fuel
  induction fuel with
  | zero =>
      intro rem st cmds st' h d hd
      rw [multiInnerLoop_zero] at h
      split at h
      · exact Option.noConfusion h
      · cases Option.some.inj h
        exact absurd hd (List.not_mem_nil d)
  | succ n ih =>
      intro rem st cmds st' h d hd
      by_cases hg : 0 < rem ∧ st.fileIndex < streams.length
      · rw [multiInnerLoop_succ_of_guard _ _ _ _ _ hg.1 hg.2] at h
        simp only [Option.map_eq_some'] at h
        obtain ⟨⟨cmds0, st0⟩, hrec, heq⟩ := h
        cases heq
        rcases List.mem_cons.1 hd with rfl | hd0
        · rfl
        · exact ih _ _ _ _ hrec d hd0
      · rw [multiInnerLoop_succ_no_guard _ _ _ _ _ hg] at h
        cases Option.some.inj h
        exact absurd hd (List.not_mem_nil d)

theorem multiInnerLoop_sum (streams : List AudioStream) (ctr : Nat) :
    ∀ (fuel : Nat) (rem : ℚ) (st : WalkState) (cmds : List MultiDirective)
      (st' : WalkState),
      multiInnerLoop streams ctr fuel rem st = some (cmds, st') →
      0 ≤ rem → sumDur cmds ≤ rem := by
  intro fuel
  induction fuel with
  | zero =>
      intro rem st cmds st' h hr
      rw [multiInnerLoop_zero] at h
      split at h
      · exact Option.noConfusion h
      · cases Option.some.inj h
        simpa [sumDur] using hr
  | succ n ih =>
      intro rem st cmds st' h hr
      by_cases hg : 0 < rem ∧ st.fileIndex < streams.length
      · rw [multiInnerLoop_succ_of_guard _ _ _ _ _ hg.1 hg.2] at h
        simp only [Option.map_eq_some'] at h
        obtain ⟨⟨cmds0, st0⟩, hrec, heq⟩ := h
        cases heq
        have hce : adjustChunkEnd (streams.getD st.fileIndex ⟨0, []⟩).silences
            (min (streams.getD st.fileIndex ⟨0, []⟩).duration (st.filePos + rem)) ≤
              st.filePos + rem :=
          le_trans (adjustChunkEnd_le _ _) (min_le_right _ _)
        have hrem' : (0 : ℚ) ≤ rem -
            (adjustChunkEnd (streams.getD st.fileIndex ⟨0, []⟩).silences
              (min (streams.getD st.fileIndex ⟨0, []⟩).duration (st.filePos + rem)) -
                st.filePos) := by
          linarith
        have htail := ih _ _ _ _ hrec hrem'
        rw [sumDur_cons]
        simp only at htail ⊢
        linarith
      · rw [multiInnerLoop_succ_no_guard _ _ _ _ _ hg] at h
        cases Option.some.inj h
        simpa [sumDur] using hr

theorem multiOuterLoop_outIdx_bounds (streams : List AudioStream) (fuel : Nat) :
    ∀ (ts : List ℚ) (ctr : Nat) (st : WalkState) (cmds : List MultiDirective),
      multiOuterLoop streams fuel ts ctr st = some cmds →
      ∀ d ∈ cmds, ctr ≤ d.outIdx ∧ d.outIdx < ctr + ts.length := by
  intro ts
  induction ts with
  | nil =>
      intro ctr st cmds h d hd
      rw [multiOuterLoop] at h
      cases Option.some.inj h
      exact absurd hd (List.not_mem_nil d)
  | cons T rest ih =>
      intro ctr st cmds h d hd
      rw [multiOuterLoop] at h
      rcases hrec : multiInnerLoop streams ctr fuel T st with - | ⟨cmds0, st0⟩
      · rw [hrec] at h
        exact Option.noConfusion h
      · rw [hrec] at h
        simp only [Option.map_eq_some'] at h
        obtain ⟨tail, htail, heq⟩ := h
        subst heq
        rcases List.mem_append.1 hd with h0 | h1
        · have hix := multiInnerLoop_outIdx streams ctr fuel T st cmds0 st0 hrec d h0
          rw [hix]
          simp only [List.length_cons]
          omega
        · have hb := ih (ctr + 1) st0 tail htail d h1
          simp only [List.length_cons]
          omega

theorem multiOuterLoop_filter_sum (streams : List AudioStream) (fuel : Nat) :
    ∀ (ts : List ℚ) (ctr : Nat) (st : WalkState) (cmds : List MultiDirective),
      multiOuterLoop streams fuel ts ctr st = some cmds →
      ∀ (i : Nat) (hi : i < ts.length),
        (0 < ts.get ⟨i, hi⟩ →
          sumDur (cmds.filter (fun d => d.outIdx == ctr + i)) ≤ ts.get ⟨i, hi⟩) ∧
        (ts.get ⟨i, hi⟩ ≤ 0 →
          cmds.filter (fun d => d.outIdx == ctr + i) = []) := by
  intro ts
  induction ts with
  | nil =>
      intro ctr st cmds h i hi
      exact absurd hi (Nat.not_lt_zero i)
  | cons T rest ih =>
      intro ctr st cmds h i hi
      rw [multiOuterLoop] at h
      rcases hrec : multiInnerLoop streams ctr fuel T st with - | ⟨cmds0, st0⟩
      · rw [hrec] at h
        exact Option.noConfusion h
      · rw [hrec] at h
        simp only [Option.map_eq_some'] at h
        obtain ⟨tail, htail, heq⟩ := h
        subst heq
        have hcmds0 : ∀ d ∈ cmds0, d.outIdx = ctr :=
          multiInnerLoop_outIdx streams ctr fuel T st cmds0 st0 hrec
        have htailix : ∀ d ∈ tail, ctr + 1 ≤ d.outIdx :=
          fun d hd => (multiOuterLoop_outIdx_bounds streams fuel rest (ctr + 1) st0
            tail htail d hd).1
        match i with
        | 0 =>
            have hf1 : cmds0.filter (fun d => d.outIdx == ctr + 0) = cmds0 :=
              List.filter_eq_self.2 fun d hd => by simp [hcmds0 d hd]
            have hf2 : tail.filter (fun d => d.outIdx == ctr + 0) = [] :=
              List.filter_eq_nil_iff.2 fun d hd => by
                have h := htailix d hd
                simp only [beq_iff_eq]
                omega
            have hfilter : (cmds0 ++ tail).filter (fun d => d.outIdx == ctr + 0) =
                cmds0 := by
              rw [List.filter_append, hf1, hf2, List.append_nil]
            rw [hfilter]
            have hget : (T :: rest).get ⟨0, hi⟩ = T := rfl
            rw [hget]
            constructor
            · intro hT
              exact multiInnerLoop_sum streams ctr fuel T st cmds0 st0 hrec hT.le
            · intro hT
              have := multiInnerLoop_of_nonpos streams ctr fuel T st hT
              rw [this] at hrec
              cases Option.some.inj hrec
              rfl
        | j + 1 =>
            have hj : j < rest.length := by
              simpa [List.length_cons] using hi
            have hf1 : cmds0.filter (fun d => d.outIdx == ctr + (j + 1)) = [] :=
              List.filter_eq_nil_iff.2 fun d hd => by
                have h := hcmds0 d hd
                simp only [beq_iff_eq]
                omega
            have hfilter : (cmds0 ++ tail).filter (fun d => d.outIdx == ctr + (j + 1)) =
                tail.filter (fun d => d.outIdx == (ctr + 1) + j) := by
              rw [List.filter_append, hf1, List.nil_append]
              have harith : ctr + (j + 1) = (ctr + 1) + j := by omega
              rw [harith]
            rw [hfilter]
            have hget : (T :: rest).get ⟨j + 1, hi⟩ = rest.get ⟨j, hj⟩ := rfl
            rw [hget]
            exact ih (ctr + 1) st0 tail htail j hj

/-- C4: for every terminating run of the multi-stream segmenter and every
output index actually produced, the sum of `end - start` over the directives
carrying that output index does not exceed the corresponding target
duration. -/
theorem C4_output_duration_bound (streams : List AudioStream) (targets : List ℚ)
    (fuel : Nat) (cmds : List MultiDirective) (i : Nat) (hi : i < targets.length)
    (hrun : generate_split_commands_multi_file streams targets fuel = some cmds)
    (hprod : ∃ d ∈ cmds, d.outIdx = i) :
    sumDur (cmds.filter (fun d => d.outIdx == i)) ≤ targets.get ⟨i, hi⟩ := by
  rw [generate_split_commands_multi_file] at hrun
  have hfs := multiOuterLoop_filter_sum streams fuel targets 0 ⟨0, 0⟩ cmds hrun i hi
  rcases lt_or_le 0 (targets.get ⟨i, hi⟩) with hpos | hneg
  · have := hfs.1 hpos
    simpa using this
  · exfalso
    obtain ⟨d, hd, hdi⟩ := hprod
    have hmem : d ∈ cmds.filter (fun d => d.outIdx == 0 + i) :=
      List.mem_filter.2 ⟨hd, by simp [hdi]⟩
    rw [hfs.2 hneg] at hmem
    exact absurd hmem (List.not_mem_nil d)

/-- C4 (witness): the duration-sum bound applied to the concrete run over one
stream of duration 10 with no silences and the single target 5, which emits
exactly one directive `(0, 5)` with output index 0. -/
theorem C4_output_duration_bound_witness :
    sumDur (List.filter (fun d => d.outIdx == 0)
      [(⟨0, 0, 5, 0⟩ : MultiDirective)]) ≤ [(5 : ℚ)].get ⟨0, Nat.zero_lt_one⟩ := by
  have ha : multiInnerLoop [(⟨10, []⟩ : AudioStream)] 0 1 0 ⟨0, 5⟩ =
      some ([], ⟨0, 5⟩) := multiInnerLoop_of_nonpos _ _ _ _ _ (le_refl 0)
  have hb : multiInnerLoop [(⟨10, []⟩ : AudioStream)] 0 2 5 ⟨0, 0⟩ =
      some ([⟨0, 0, 5, 0⟩], ⟨0, 5⟩) := by
    rw [show (2 : Nat) = 1 + 1 from rfl,
      multiInnerLoop_succ_of_guard _ _ _ _ _ (by norm_num) (by norm_num)]
    norm_num [List.getD, adjustChunkEnd, min_def, ha]
  have hrun : generate_split_commands_multi_file [⟨10, []⟩] [5] 2 =
      some [⟨0, 0, 5, 0⟩] := by
    rw [generate_split_commands_multi_file, multiOuterLoop, hb]
    simp [multiOuterLoop]
  exact C4_output_duration_bound [⟨10, []⟩] [5] 2 [⟨0, 0, 5, 0⟩] 0 Nat.zero_lt_one
    hrun ⟨⟨0, 0, 5, 0⟩, List.mem_singleton.2 rfl, rfl⟩

theorem splitCommandsGo_pos (fd m : ℚ) (hm : 0 < m) :
    ∀ (s : List (ℚ × ℚ)) (cursor : ℚ) (k : Nat),
      ∀ dir ∈ splitCommandsGo fd m s cursor k, dir.1 < dir.2.1 := by
  intro s
  induction s with
  | nil =>
      intro cursor k dir hdir
      simp only [splitCommandsGo] at hdir
      split at hdir
      · next hc =>
          rcases List.mem_singleton.1 hdir with rfl
          show cursor < fd
          linarith
      · exact absurd hdir (List.not_mem_nil dir)
  | cons hd tl ih =>
      intro cursor k dir hdir
      obtain ⟨ss, se⟩ := hd
      simp only [splitCommandsGo] at hdir
      split at hdir
      · next hc =>
          rcases List.mem_cons.1 hdir with rfl | h0
          · show cursor < ss
            linarith
          · exact ih se (k + 1) dir h0
      · exact ih se k dir hdir

/-- Invariant of the multi-file walk position: it is nonnegative and, when
the index is in bounds, lies within the current stream and never strictly
inside one of its silence intervals. -/
def PosInv (streams : List AudioStream) (st : WalkState) : Prop :=
  0 ≤ st.filePos ∧
    (st.fileIndex < streams.length →
      st.filePos ≤ (streams.getD st.fileIndex ⟨0, []⟩).duration ∧
        ∀ p ∈ (streams.getD st.fileIndex ⟨0, []⟩).silences,
          ¬(p.1 < st.filePos ∧ st.filePos < p.2))

theorem getD_mem_of_lt (streams : List AudioStream) (n : Nat)
    (h : n < streams.length) : streams.getD n ⟨0, []⟩ ∈ streams := by
  rw [List.getD_eq_get _ _ h]
  exact streams.get_mem _ _

theorem PosInv_init (streams : List AudioStream)
    (hwf : ∀ s ∈ streams, WellFormedStream s) : PosInv streams ⟨0, 0⟩ := by
  refine ⟨le_refl 0, fun hlen => ?_⟩
  have hw := hwf _ (getD_mem_of_lt streams 0 hlen)
  refine ⟨hw.1, fun p hp => ?_⟩
  rintro ⟨h1, -⟩
  exact absurd (hw.2.1 p hp).1 (not_le.2 h1)

theorem multiInnerLoop_mono (streams : List AudioStream)
    (hwf : ∀ s ∈ streams, WellFormedStream s) (ctr : Nat) :
    ∀ (fuel : Nat) (rem : ℚ) (st : WalkState) (cmds : List MultiDirective)
      (st' : WalkState),
      multiInnerLoop streams ctr fuel rem st = some (cmds, st') →
      PosInv streams st →
      (∀ d ∈ cmds, d.start ≤ d.stop) ∧ PosInv streams st' := by
  intro fuel
  induction fuel with
  | zero =>
      intro rem st cmds st' h hinv
      rw [multiInnerLoop_zero] at h
      split at h
      · exact Option.noConfusion h
      · cases Option.some.inj h
        exact ⟨fun d hd => absurd hd (List.not_mem_nil d), hinv⟩
  | succ n ih =>
      intro rem st cmds st' h hinv
      by_cases hg : 0 < rem ∧ st.fileIndex < streams.length
      · rw [multiInnerLoop_succ_of_guard _ _ _ _ _ hg.1 hg.2] at h
        simp only [Option.map_eq_some'] at h
        obtain ⟨⟨cmds0, st0⟩, hrec, heq⟩ := h
        cases heq
        have hwS : WellFormedStream (streams.getD st.fileIndex ⟨0, []⟩) :=
          hwf _ (getD_mem_of_lt streams st.fileIndex hg.2)
        have hinv2 := hinv.2 hg.2
        have hmin_lb : st.filePos ≤
            min (streams.getD st.fileIndex ⟨0, []⟩).duration (st.filePos + rem) :=
          le_min hinv2.1 (by linarith [hg.1])
        have hce_lb : st.filePos ≤ adjustChunkEnd
            (streams.getD st.fileIndex ⟨0, []⟩).silences
            (min (streams.getD st.fileIndex ⟨0, []⟩).duration (st.filePos + rem)) := by
          rcases adjustChunkEnd_cases (streams.getD st.fileIndex ⟨0, []⟩).silences
            (min (streams.getD st.fileIndex ⟨0, []⟩).duration (st.filePos + rem)) with
            hid | ⟨p, hp, h1, h2, h3⟩
          · rw [hid]
            exact hmin_lb
          · rw [h3]
            by_contra hlt
            push_neg at hlt
            exact hinv2.2 p hp ⟨hlt, lt_of_le_of_lt hmin_lb h2⟩
        have hnotin := adjustChunkEnd_not_inside
          (streams.getD st.fileIndex ⟨0, []⟩).silences hwS.2.2
          (min (streams.getD st.fileIndex ⟨0, []⟩).duration (st.filePos + rem))
        have hpe : st.filePos + (adjustChunkEnd
            (streams.getD st.fileIndex ⟨0, []⟩).silences
            (min (streams.getD st.fileIndex ⟨0, []⟩).duration (st.filePos + rem)) -
              st.filePos) = adjustChunkEnd
            (streams.getD st.fileIndex ⟨0, []⟩).silences
            (min (streams.getD st.fileIndex ⟨0, []⟩).duration (st.filePos + rem)) := by
          ring
        have hinv' : PosInv streams
            (if (streams.getD st.fileIndex ⟨0, []⟩).duration ≤
                st.filePos + (adjustChunkEnd
                  (streams.getD st.fileIndex ⟨0, []⟩).silences
                  (min (streams.getD st.fileIndex ⟨0, []⟩).duration
                    (st.filePos + rem)) - st.filePos) then
              (⟨st.fileIndex + 1, 0⟩ : WalkState)
            else ⟨st.fileIndex, st.filePos + (adjustChunkEnd
              (streams.getD st.fileIndex ⟨0, []⟩).silences
              (min (streams.getD st.fileIndex ⟨0, []⟩).duration
                (st.filePos + rem)) - st.filePos)⟩) := by
          split
          · refine ⟨le_refl 0, fun hlen => ?_⟩
            have hw' := hwf _ (getD_mem_of_lt streams (st.fileIndex + 1) hlen)
            refine ⟨hw'.1, fun p hp => ?_⟩
            rintro ⟨h1, -⟩
            exact absurd (hw'.2.1 p hp).1 (not_le.2 h1)
          · next hroll =>
              rw [hpe] at hroll ⊢
              push_neg at hroll
              refine ⟨le_trans hinv.1 hce_lb, fun _ => ⟨le_of_lt hroll, ?_⟩⟩
              intro p hp
              exact hnotin p hp
        obtain ⟨hall, hfin⟩ := ih _ _ _ _ hrec hinv'
        refine ⟨fun d hd => ?_, hfin⟩
        rcases List.mem_cons.1 hd with rfl | hd0
        · exact hce_lb
        · exact hall d hd0
      · rw [multiInnerLoop_succ_no_guard _ _ _ _ _ hg] at h
        cases Option.some.inj h
        exact ⟨fun d hd => absurd hd (List.not_mem_nil d), hinv⟩

theorem multiOuterLoop_mono (streams : List AudioStream)
    (hwf : ∀ s ∈ streams, WellFormedStream s) (fuel : Nat) :
    ∀ (ts : List ℚ) (ctr : Nat) (st : WalkState) (cmds : List MultiDirective),
      multiOuterLoop streams fuel ts ctr st = some cmds → PosInv streams st →
      ∀ d ∈ cmds, d.start ≤ d.stop := by
  intro ts
  induction ts with
  | nil =>
      intro ctr st cmds h hinv d hd
      rw [multiOuterLoop] at h
      cases Option.some.inj h
      exact absurd hd (List.not_mem_nil d)
  | cons T rest ih =>
      intro ctr st cmds h hinv d hd
      rw [multiOuterLoop] at h
      rcases hrec : multiInnerLoop streams ctr fuel T st with - | ⟨cmds0, st0⟩
      · rw [hrec] at h
        exact Option.noConfusion h
      · rw [hrec] at h
        simp only [Option.map_eq_some'] at h
        obtain ⟨tail, htail, heq⟩ := h
        subst heq
        obtain ⟨hall, hfin⟩ := multiInnerLoop_mono streams hwf ctr fuel T st
          cmds0 st0 hrec hinv
        rcases List.mem_append.1 hd with h0 | h1
        · exact hall d h0
        · exact ih (ctr + 1) st0 tail htail hfin d h1

/-- C2 (counterexample): with `min_duration = 0` — an allowed input, the
spec even says `min_duration` may be zero — and the silence `(0, 1)` in a
stream of duration 2, the single-stream segmenter emits the zero-duration
directive `(0, 0, 0)`: it is not true that every emitted directive has end
strictly greater than start. -/
theorem C2_no_degenerate_directives_counterexample :
    ¬(∀ dir ∈ generate_split_commands 2 [(0, 1)] 0, dir.1 < dir.2.1) := by
  intro h
  have hmem : ((0 : ℚ), (0 : ℚ), (0 : Nat)) ∈ generate_split_commands 2 [(0, 1)] 0 := by
    norm_num [generate_split_commands, splitCommandsGo]
  exact absurd (h _ hmem) (lt_irrefl (0 : ℚ))

/-- C2 (amended): with strictly positive `min_duration`, every directive of
the single-stream segmenter has end strictly greater than start; and for
well-formed streams (silences ordered, disjoint, inside `[0, duration]`),
every directive of a terminating multi-stream run has end at least its start
(no inverted directive) — zero-duration directives, however, are possible in
both segmenters in the excluded degenerate cases. -/
theorem C2_no_degenerate_directives_amended :
    (∀ (d : ℚ) (silences : List (ℚ × ℚ)) (m : ℚ), 0 < m →
      ∀ dir ∈ generate_split_commands d silences m, dir.1 < dir.2.1) ∧
    (∀ (streams : List AudioStream) (targets : List ℚ) (fuel : Nat)
      (cmds : List MultiDirective), (∀ s ∈ streams, WellFormedStream s) →
      generate_split_commands_multi_file streams targets fuel = some cmds →
      ∀ dir ∈ cmds, dir.start ≤ dir.stop) := by
  constructor
  · intro d silences m hm dir hdir
    exact splitCommandsGo_pos d m hm silences 0 0 dir hdir
  · intro streams targets fuel cmds hwf hrun dir hdir
    rw [generate_split_commands_multi_file] at hrun
    exact multiOuterLoop_mono streams hwf fuel targets 0 ⟨0, 0⟩ cmds hrun
      (PosInv_init streams hwf) dir hdir

/-- C2 (witness): the amended statement applied at `min_duration = 60` on
the concrete stream of duration 180 with silences `[(30,35),(90,95)]`, whose
only directive is `(95, 180, 0)`. -/
theorem C2_no_degenerate_directives_witness :
    (0 : ℚ) < 60 ∧
      ((95 : ℚ), (180 : ℚ), (0 : Nat)) ∈ generate_split_commands 180 [(30, 35), (90, 95)] 60 ∧
      (95 : ℚ) < 180 := by
  have hmem : ((95 : ℚ), (180 : ℚ), (0 : Nat)) ∈
      generate_split_commands 180 [(30, 35), (90, 95)] 60 := by
    norm_num [generate_split_commands, splitCommandsGo]
  exact ⟨by norm_num, hmem,
    C2_no_degenerate_directives_amended.1 180 [(30, 35), (90, 95)] 60 (by norm_num)
      _ hmem⟩

/-- The output ordering property of claim C7: directives are pairwise
non-overlapping (an earlier end never exceeds a later start) and sorted
strictly increasing by start. -/
def NonOverlapSorted (l : List SingleDirective) : Prop :=
  List.Pairwise (fun d1 d2 : SingleDirective => d1.2.1 ≤ d2.1 ∧ d1.1 < d2.1) l

/-- C7 (counterexample): with `min_duration = 0` and the degenerate (but
spec-allowed, `start ≤ end`) silence interval `(0, 0)` in a stream of
duration 0, the single-stream segmenter returns `[(0,0,0), (0,0,1)]`, whose
starts are not strictly increasing: the claimed ordering fails for
`min_duration = 0`. -/
theorem C7_directives_sorted_counterexample :
    ¬NonOverlapSorted (generate_split_commands 0 [(0, 0)] 0) := by
  have hout : generate_split_commands 0 [(0, 0)] 0 = [(0, 0, 0), (0, 0, 1)] := by
    norm_num [generate_split_commands, splitCommandsGo]
  rw [hout, NonOverlapSorted]
  intro h
  have := (List.pairwise_cons.1 h).1 (0, 0, 1) (List.mem_singleton.2 rfl)
  exact absurd this.2 (lt_irrefl (0 : ℚ))

theorem splitCommandsGo_chain (fd m : ℚ) (hm : 0 < m) :
    ∀ (s : List (ℚ × ℚ)) (cursor : ℚ) (k : Nat),
      (∀ p ∈ s, cursor ≤ p.1 ∧ p.1 ≤ p.2) →
      List.Pairwise (fun p q : ℚ × ℚ => p.2 ≤ q.1) s →
      (∀ dir ∈ splitCommandsGo fd m s cursor k, cursor ≤ dir.1) ∧
        NonOverlapSorted (splitCommandsGo fd m s cursor k) := by
  intro s
  induction s with
  | nil =>
      intro cursor k hbound hord
      simp only [splitCommandsGo]
      split
      · refine ⟨fun dir hdir => ?_, List.pairwise_singleton _ _⟩
        rcases List.mem_singleton.1 hdir with rfl
        exact le_refl cursor
      · exact ⟨fun dir hdir => absurd hdir (List.not_mem_nil dir), List.Pairwise.nil⟩
  | cons hd tl ih =>
      intro cursor k hbound hord
      obtain ⟨ss, se⟩ := hd
      obtain ⟨hss_cursor, hss_se⟩ := hbound (ss, se) (List.mem_cons_self _ _)
      obtain ⟨hhead, htlord⟩ := List.pairwise_cons.1 hord
      have hbound' : ∀ p ∈ tl, se ≤ p.1 ∧ p.1 ≤ p.2 :=
        fun p hp => ⟨hhead p hp, (hbound p (List.mem_cons_of_mem _ hp)).2⟩
      simp only [splitCommandsGo]
      split
      · next hc =>
          have hlt : cursor < ss := by linarith
          obtain ⟨hih1, hih2⟩ := ih se (k + 1) hbound' htlord
          refine ⟨fun dir hdir => ?_, ?_⟩
          · rcases List.mem_cons.1 hdir with rfl | h0
            · exact le_refl cursor
            · exact le_trans (le_of_lt hlt) (le_trans hss_se (hih1 dir h0))
          · rw [NonOverlapSorted, List.pairwise_cons]
            refine ⟨fun dir hdir => ?_, hih2⟩
            have h1 := hih1 dir hdir
            exact ⟨le_trans hss_se h1, lt_of_lt_of_le hlt (le_trans hss_se h1)⟩
      · obtain ⟨hih1, hih2⟩ := ih se k hbound' htlord
        refine ⟨fun dir hdir => ?_, hih2⟩
        exact le_trans hss_cursor (le_trans hss_se (hih1 dir hdir))

/-- C7 (amended): for strictly positive `min_duration` and a time-ordered,
pairwise-disjoint silence list whose intervals are well-formed and within
`[0, duration]`, the single-stream segmenter returns directives that are
pairwise non-overlapping and sorted strictly increasing by start (with
`min_duration = 0` and a degenerate silence this fails; see the
counterexample). -/
theorem C7_directives_sorted_amended (d : ℚ) (silences : List (ℚ × ℚ)) (m : ℚ)
    (hm : 0 < m)
    (hwf : ∀ p ∈ silences, 0 ≤ p.1 ∧ p.1 ≤ p.2 ∧ p.2 ≤ d)
    (hord : List.Pairwise (fun p q : ℚ × ℚ => p.2 ≤ q.1) silences) :
    NonOverlapSorted (generate_split_commands d silences m) := by
  rw [generate_split_commands]
  exact (splitCommandsGo_chain d m hm silences 0 0
    (fun p hp => ⟨(hwf p hp).1, (hwf p hp).2.1⟩) hord).2

/-- C7 (witness): the ordering theorem applied to the concrete stream of
duration 180 with silences `[(30,35),(90,95)]` and `min_duration = 60`. -/
theorem C7_directives_sorted_witness :
    NonOverlapSorted (generate_split_commands 180 [(30, 35), (90, 95)] 60) := by
  refine C7_directives_sorted_amended 180 [(30, 35), (90, 95)] 60 (by norm_num)
    ?_ ?_
  · rintro p hp
    rcases List.mem_cons.1 hp with rfl | hp
    · norm_num
    · rcases List.mem_singleton.1 hp with rfl
      norm_num
  · refine List.Pairwise.cons ?_ (List.pairwise_singleton _ _)
    intro q hq
    rcases List.mem_singleton.1 hq with rfl
    norm_num

theorem splitCommandsGo_getLast (fd m : ℚ) :
    ∀ (s : List (ℚ × ℚ)) (cursor : ℚ) (k : Nat),
      m ≤ fd - s.foldl (fun _ p => p.2) cursor →
      ∃ j, (splitCommandsGo fd m s cursor k).getLast? =
        some (s.foldl (fun _ p => p.2) cursor, fd, j) := by
  intro s
  induction s with
  | nil =>
      intro cursor k hcond
      simp only [List.foldl_nil] at hcond ⊢
      simp only [splitCommandsGo]
      rw [if_pos hcond]
      exact ⟨k, rfl⟩
  | cons hd tl ih =>
      intro cursor k hcond
      obtain ⟨ss, se⟩ := hd
      simp only [List.foldl_cons] at hcond ⊢
      simp only [splitCommandsGo]
      split
      · obtain ⟨j, hj⟩ := ih se (k + 1) hcond
        refine ⟨j, ?_⟩
        rcases hl : splitCommandsGo fd m tl se (k + 1) with - | ⟨y, ys⟩
        · rw [hl] at hj
          simp at hj
        · rw [hl] at hj
          rw [List.getLast?_cons_cons]
          exact hj
      · exact ih se k hcond

/-- C9: the duration probe returns milliseconds (the probed value times
1000) while the single-stream segmenter compares it directly against
second-denominated silence times: whenever the trailing-directive condition
holds, the last directive of the composed function ends at
`get_file_duration probed = 1000 * probed`, which differs from the probed
duration `probed` whenever the latter is nonzero. -/
theorem C9_trailing_unit_mismatch (probed : ℚ) (silences : List (ℚ × ℚ)) (m : ℚ)
    (h : m ≤ get_file_duration probed - finalCursor silences) :
    (∃ j, (generate_split_commands_probed probed silences m).getLast? =
      some (finalCursor silences, get_file_duration probed, j)) ∧
    get_file_duration probed = 1000 * probed ∧
    (probed ≠ 0 → get_file_duration probed ≠ probed) := by
  refine ⟨?_, by rw [get_file_duration]; ring, fun h0 heq => ?_⟩
  · rw [generate_split_commands_probed, generate_split_commands]
    have hcond : m ≤ get_file_duration probed -
        silences.foldl (fun _ p => p.2) 0 := h
    exact splitCommandsGo_getLast (get_file_duration probed) m silences 0 0 hcond
  · rw [get_file_duration] at heq
    apply h0
    linarith

/-- C9 (witness): the unit-mismatch theorem applied to the probed duration 1
second with no silences and `min_duration = 0`: the single directive is
`(0, 1000, 0)` — the trailing end is 1000, not 1. -/
theorem C9_trailing_unit_mismatch_witness :
    (∃ j, (generate_split_commands_probed 1 [] 0).getLast? =
      some (finalCursor [], get_file_duration 1, j)) ∧
    get_file_duration 1 = 1000 * 1 ∧
    ((1 : ℚ) ≠ 0 → get_file_duration 1 ≠ 1) :=
  C9_trailing_unit_mismatch 1 [] 0
    (by norm_num [get_file_duration, finalCursor])

/-- C8 (witness): the zero-duration-stream step theorem applied to the
concrete single stream of duration 0 with remaining target 5 at position 0:
the step emits the degenerate directive `(0, 0)` for stream 0 and advances
the index. -/
theorem C8_zero_duration_stream_witness :
    multiInnerLoop [(⟨0, []⟩ : AudioStream)] 0 (0 + 1) 5 ⟨0, 0⟩ =
      Option.map (fun r => ((⟨0, 0, 0, 0⟩ : MultiDirective) :: r.1, r.2))
        (multiInnerLoop [(⟨0, []⟩ : AudioStream)] 0 0 5 ⟨0 + 1, 0⟩) :=
  C8_zero_duration_stream_amended [⟨0, []⟩] 0 0 5 ⟨0, 0⟩ (by norm_num) (by norm_num)
    (by simp [List.getD]) (by simp [List.getD]) rfl
